import Mathlib

/-!
# Verification of the bincode decode engine against its specification

Shallow embedding of the byte-budget accountant, the container codec
protocol and the serde bridge from:
  * `src/bincode/bincode/src/de/decoder.rs`
  * `src/bincode/bincode/src/features/impl_alloc.rs`
  * `src/bincode/bincode/src/features/serde/de_owned.rs`

Machine integers (`usize`) are modelled as `Nat` with explicit bounds
against `USIZE_MAX`.  Byte streams are modelled as `List Nat`.  Pieces of
the crate that the sources only call into (the `Reader` trait, the
length-encoding, the primitive integer decodes, `decode_option_variant`
and `claim_container_read`) are modelled from the spec; each such
definition says so in its doc comment.
-/

namespace Bincode

/-- Decode-side error taxonomy (spec §7): limit-exceeded, unexpected end of
input, invalid encoded value (variant out of range), and the three
unsupported-operation errors raised by the structured-value bridge. -/
inductive DecodeError where
  | limitExceeded
  | unexpectedEnd
  | unexpectedVariant (found : Nat)
  | anyNotSupported
  | identifierNotSupported
  | ignoredAnyNotSupported
  deriving DecidableEq, Repr

/-- Largest value of the `usize` counter (64-bit platform). -/
def USIZE_MAX : Nat := 2 ^ 64 - 1

/-- `usize::checked_add`: `some (a + b)` unless the sum overflows. -/
def checked_add (a b : Nat) : Option Nat :=
  if a + b ≤ USIZE_MAX then some (a + b) else none

/-- Byte order of the Config (spec §3). -/
inductive ByteOrder where
  | little
  | big
  deriving DecidableEq, Repr

/-- The Config policy object: the optional decode byte-budget `LIMIT` and the
byte order.  `C::LIMIT` in the source is a compile-time constant
`Option<usize>`. -/
structure Cfg where
  limit : Option Nat
  order : ByteOrder
  deriving DecidableEq, Repr

/-- `DecoderImpl::claim_bytes_read` (src/bincode/bincode/src/de/decoder.rs
lines 70-86), acting on the `bytes_read` counter.  Returns the result
together with the counter as left behind by the call — on the
overflow failure the `?` fires before the assignment, on the
exceed-limit failure the assignment has already happened. -/
def claim_bytes_read (C : Cfg) (bytes_read n : Nat) :
    Except DecodeError Unit × Nat :=
  match C.limit with
  | some limit =>
    match checked_add bytes_read n with
    | none => (Except.error DecodeError.limitExceeded, bytes_read)
    | some newRead =>
      if newRead > limit then (Except.error DecodeError.limitExceeded, newRead)
      else (Except.ok (), newRead)
  | none => (Except.ok (), bytes_read)

/-- `DecoderImpl::unclaim_bytes_read` (decoder.rs lines 88-95): subtract `n`
when a limit is set, no-op otherwise.  The source uses an unchecked
`-=` under the contract that callers never unclaim more than was
claimed; `Nat` subtraction truncates at zero. -/
def unclaim_bytes_read (C : Cfg) (bytes_read n : Nat) : Nat :=
  if C.limit.isSome then bytes_read - n else bytes_read

/-- Decoder stream state: the remaining input bytes and the running
`bytes_read` counter of the accountant. -/
structure DState where
  input : List Nat
  bytes_read : Nat
  deriving DecidableEq, Repr

/-- `claim_bytes_read` lifted to the decoder state. -/
def claimD (C : Cfg) (n : Nat) (st : DState) : Except DecodeError Unit × DState :=
  let p := claim_bytes_read C st.bytes_read n
  (p.1, { st with bytes_read := p.2 })

/-- `unclaim_bytes_read` lifted to the decoder state. -/
def unclaimD (C : Cfg) (n : Nat) (st : DState) : DState :=
  { st with bytes_read := unclaim_bytes_read C st.bytes_read n }

/-- Modelled from the spec: the `Reader` trait (src/bincode/bincode/src/de/read.rs
is not among the sources) — "Reader pulls exactly N bytes or fails"
(spec §3).  On failure nothing is consumed. -/
def readBytes (n : Nat) (st : DState) : Except DecodeError (List Nat) × DState :=
  if n ≤ st.input.length then
    (Except.ok (st.input.take n), { st with input := st.input.drop n })
  else (Except.error DecodeError.unexpectedEnd, st)

/-- Modelled from the spec: single-byte pull of the `Reader` (read.rs is not
among the sources). -/
def readByte (st : DState) : Except DecodeError Nat × DState :=
  match st.input with
  | [] => (Except.error DecodeError.unexpectedEnd, st)
  | b :: rest => (Except.ok b, { st with input := rest })

/-- Modelled from the spec: `u8::decode` (the primitive integer decodes of
de/impl_core.rs are not among the sources) — "every primitive decode
pay[s] into a running total" (spec §4.2): claim one byte, then read it. -/
def u8_decode (C : Cfg) (st : DState) : Except DecodeError Nat × DState :=
  match claimD C 1 st with
  | (Except.error e, st1) => (Except.error e, st1)
  | (Except.ok _, st1) => readByte st1

/-! ## The Decoder instance (decoder.rs) -/

/-- `DecoderImpl` (decoder.rs lines 24-29): owns a reader, a config, the
`bytes_read` counter and the threaded context. -/
structure DecoderImpl (Ctx : Type) where
  reader : List Nat
  config : Cfg
  bytes_read : Nat
  context : Ctx
  deriving DecidableEq, Repr

/-- `DecoderImpl::new` (decoder.rs lines 33-40): a fresh decoder with
`bytes_read: 0`. -/
def DecoderImpl.new (reader : List Nat) (config : Cfg) (context : Ctx) :
    DecoderImpl Ctx :=
  { reader := reader, config := config, bytes_read := 0, context := context }

/-- `Decoder::claim_bytes_read` on a `DecoderImpl` value. -/
def DecoderImpl.claim (d : DecoderImpl Ctx) (n : Nat) :
    Except DecodeError Unit × DecoderImpl Ctx :=
  let p := claim_bytes_read d.config d.bytes_read n
  (p.1, { d with bytes_read := p.2 })

/-- `Decoder::unclaim_bytes_read` on a `DecoderImpl` value. -/
def DecoderImpl.unclaim (d : DecoderImpl Ctx) (n : Nat) : DecoderImpl Ctx :=
  { d with bytes_read := unclaim_bytes_read d.config d.bytes_read n }

/-- One accountant operation of a decode session. -/
inductive AccOp where
  | claimOp (n : Nat)
  | unclaimOp (n : Nat)
  deriving DecidableEq, Repr

/-- Run a sequence of accountant operations on the `bytes_read` counter; the
session aborts at the first failing claim (spec §3: "any attempt to exceed
it fails the whole decode permanently"). -/
def runAccOps (C : Cfg) : List AccOp → Nat → Except DecodeError Nat
  | [], br => Except.ok br
  | AccOp.claimOp n :: ops, br =>
    match claim_bytes_read C br n with
    | (Except.error e, _) => Except.error e
    | (Except.ok _, br') => runAccOps C ops br'
  | AccOp.unclaimOp n :: ops, br => runAccOps C ops (unclaim_bytes_read C br n)

/-! ## The context-substitution wrapper `WithContext` (decoder.rs 102-135) -/

/-- `WithContext` (decoder.rs lines 102-105): holds the outer decoder and a
substituted context value. -/
structure WithContext (Ctx C : Type) where
  decoder : DecoderImpl Ctx
  context : C
  deriving DecidableEq, Repr

/-- `WithContext`'s `Decoder::context` (decoder.rs 116-118): the substituted
context, not the outer decoder's. -/
def WithContext.contextOf (w : WithContext Ctx C) : C := w.context

/-- `WithContext`'s `Decoder::config` (decoder.rs 124-126): delegates to the
outer decoder. -/
def WithContext.configOf (w : WithContext Ctx C) : Cfg := w.decoder.config

/-- `WithContext`'s `Decoder::claim_bytes_read` (decoder.rs 128-130):
delegates to the outer decoder. -/
def WithContext.claim (w : WithContext Ctx C) (n : Nat) :
    Except DecodeError Unit × WithContext Ctx C :=
  let p := w.decoder.claim n
  (p.1, { w with decoder := p.2 })

/-- `WithContext`'s `Decoder::unclaim_bytes_read` (decoder.rs 132-134):
delegates to the outer decoder. -/
def WithContext.unclaim (w : WithContext Ctx C) (n : Nat) : WithContext Ctx C :=
  { w with decoder := w.decoder.unclaim n }

/-- `WithContext`'s `Decoder::reader` (decoder.rs 120-122): the outer
decoder's reader; modelled as pulling `n` bytes from it. -/
def WithContext.readerRead (w : WithContext Ctx C) (n : Nat) :
    Except DecodeError (List Nat) × WithContext Ctx C :=
  if n ≤ w.decoder.reader.length then
    (Except.ok (w.decoder.reader.take n),
     { w with decoder := { w.decoder with reader := w.decoder.reader.drop n } })
  else (Except.error DecodeError.unexpectedEnd, w)

/-- One step of an inner decode performed through the wrapper: it may claim,
unclaim, read from the reader, or mutate the substituted context. -/
inductive WrapOp (C : Type) where
  | claimOp (n : Nat)
  | unclaimOp (n : Nat)
  | readOp (n : Nat)
  | setContextOp (c : C)

/-- Run an inner decode, modelled as a sequence of wrapper operations. -/
def WithContext.runOps : List (WrapOp C) → WithContext Ctx C → WithContext Ctx C
  | [], w => w
  | WrapOp.claimOp n :: ops, w => WithContext.runOps ops (w.claim n).2
  | WrapOp.unclaimOp n :: ops, w => WithContext.runOps ops (w.unclaim n)
  | WrapOp.readOp n :: ops, w => WithContext.runOps ops (w.readerRead n).2
  | WrapOp.setContextOp c :: ops, w =>
    WithContext.runOps ops { w with context := c }

/-! ## Length encoding (spec-modelled; spec §4.4 step 1 and §9) -/

/-- Little-endian bytes of `n`, `k` bytes wide. -/
def toLEBytes : Nat → Nat → List Nat
  | 0, _ => []
  | k + 1, n => n % 256 :: toLEBytes k (n / 256)

/-- Value of a little-endian byte run. -/
def fromLEBytes : List Nat → Nat
  | [] => 0
  | b :: bs => b % 256 + 256 * fromLEBytes bs

/-- Modelled from the spec: `encode_slice_len` (the length-encoding of
enc/mod.rs and the varint module are not among the sources).  Spec §9
licenses "a small-value single-byte fast path with explicit width markers
for larger magnitudes": counts below 251 are one byte, larger counts are
the marker byte 251 followed by eight little-endian bytes. -/
def encode_slice_len (n : Nat) : List Nat :=
  if n < 251 then [n] else 251 :: toLEBytes 8 n

/-- Modelled from the spec: `decode_slice_len` (de/mod.rs is not among the
sources) — "Read the element count `len` using the Config's
length-encoding" (spec §4.4), claiming each byte before reading it. -/
def decode_slice_len (C : Cfg) (st : DState) : Except DecodeError Nat × DState :=
  match u8_decode C st with
  | (Except.error e, st1) => (Except.error e, st1)
  | (Except.ok b, st1) =>
    if b < 251 then (Except.ok b, st1)
    else
      match claimD C 8 st1 with
      | (Except.error e, st2) => (Except.error e, st2)
      | (Except.ok _, st2) =>
        match readBytes 8 st2 with
        | (Except.error e, st3) => (Except.error e, st3)
        | (Except.ok bs, st3) => (Except.ok (fromLEBytes bs), st3)

/-! ## Container codec protocol (features/impl_alloc.rs) -/

/-- Modelled from the spec: `Decoder::claim_container_read::<T>(len)`
(de/mod.rs is not among the sources) — the pre-claim of spec §4.4 step 2:
"claim(len * size_of::<Element>())", one single `claim_bytes_read` call. -/
def claim_container_read (C : Cfg) (size len : Nat) (st : DState) :
    Except DecodeError Unit × DState :=
  claimD C (len * size) st

/-- An element type for the generic container decode: its in-memory size
`size_of::<T>()` and its `T::decode`. -/
structure ElemCodec (α : Type) where
  size : Nat
  dec : Cfg → DState → Except DecodeError α × DState

/-- The element codec of `u8`: `size_of::<u8>() = 1` and `u8::decode`. -/
def u8Codec : ElemCodec Nat := ⟨1, u8_decode⟩

/-- The per-element loop of `Vec::<T>::decode` (impl_alloc.rs lines 277-282):
refund `size_of::<T>()`, decode the element, push it. -/
def vec_decode_loop (C : Cfg) (ec : ElemCodec α) :
    Nat → DState → Except DecodeError (List α) × DState
  | 0, st => (Except.ok [], st)
  | k + 1, st =>
    match ec.dec C (unclaimD C ec.size st) with
    | (Except.error e, st2) => (Except.error e, st2)
    | (Except.ok a, st2) =>
      match vec_decode_loop C ec k st2 with
      | (Except.error e, st3) => (Except.error e, st3)
      | (Except.ok as, st3) => (Except.ok (a :: as), st3)

/-- `Vec::<T>::decode`, generic branch (impl_alloc.rs lines 263-264 and
273-284): read the length, pre-claim `len * size_of::<T>()`, then run the
refund-then-decode loop. -/
def vec_decode_generic (C : Cfg) (ec : ElemCodec α) (st : DState) :
    Except DecodeError (List α) × DState :=
  match decode_slice_len C st with
  | (Except.error e, st1) => (Except.error e, st1)
  | (Except.ok len, st1) =>
    match claim_container_read C ec.size len st1 with
    | (Except.error e, st2) => (Except.error e, st2)
    | (Except.ok _, st2) => vec_decode_loop C ec len st2

/-- `Vec::<u8>::decode`, fast-path branch taken when
`unty::type_equal::<T, u8>()` (impl_alloc.rs lines 263-272): read the
length, pre-claim `len` bytes, then read `len` bytes in one call; the
`transmute` back to `Vec<T>` is the identity here. -/
def vec_u8_decode (C : Cfg) (st : DState) : Except DecodeError (List Nat) × DState :=
  match decode_slice_len C st with
  | (Except.error e, st1) => (Except.error e, st1)
  | (Except.ok len, st1) =>
    match claim_container_read C 1 len st1 with
    | (Except.error e, st2) => (Except.error e, st2)
    | (Except.ok _, st2) => readBytes len st2

/-- `Vec::<u8>::borrow_decode` (impl_alloc.rs lines 288-303): byte-for-byte
the same algorithm as the owned fast path. -/
def vec_u8_borrow_decode (C : Cfg) (st : DState) :
    Except DecodeError (List Nat) × DState :=
  match decode_slice_len C st with
  | (Except.error e, st1) => (Except.error e, st1)
  | (Except.ok len, st1) =>
    match claim_container_read C 1 len st1 with
    | (Except.error e, st2) => (Except.error e, st2)
    | (Except.ok _, st2) => readBytes len st2

/-- Net `bytes_read` contribution of the element decodes along a successful
run of `vec_decode_loop`: for each element, the difference between the
counter after the element's decode and after its refund. -/
def elemClaimSum (C : Cfg) (ec : ElemCodec α) : Nat → DState → Int
  | 0, _ => 0
  | k + 1, st =>
    match ec.dec C (unclaimD C ec.size st) with
    | (Except.error _, _) => 0
    | (Except.ok _, st2) =>
      ((st2.bytes_read : Int) - ((unclaimD C ec.size st).bytes_read : Int)) +
        elemClaimSum C ec k st2

/-- `BTreeMap::insert` on the sorted-association-list model of a B-tree map:
keeps keys strictly sorted, replacing the value of an existing key. -/
def btree_insert [LinearOrder κ] (k : κ) (v : ν) :
    List (κ × ν) → List (κ × ν)
  | [] => [(k, v)]
  | (k', v') :: rest =>
    if k < k' then (k, v) :: (k', v') :: rest
    else if k = k' then (k, v) :: rest
    else (k', v') :: btree_insert k v rest

/-- A key/value pair type for the map decode: `size_of::<(K, V)>()` and the
two element decodes. -/
structure PairCodec (κ ν : Type) where
  size : Nat
  decK : Cfg → DState → Except DecodeError κ × DState
  decV : Cfg → DState → Except DecodeError ν × DState

/-- The per-pair loop of `BTreeMap::<K, V>::decode` (impl_alloc.rs lines
109-116): refund `size_of::<(K, V)>()`, decode key then value, insert. -/
def btree_map_decode_loop [LinearOrder κ] (C : Cfg) (pc : PairCodec κ ν) :
    Nat → List (κ × ν) → DState → Except DecodeError (List (κ × ν)) × DState
  | 0, map, st => (Except.ok map, st)
  | k + 1, map, st =>
    match pc.decK C (unclaimD C pc.size st) with
    | (Except.error e, st2) => (Except.error e, st2)
    | (Except.ok key, st2) =>
      match pc.decV C st2 with
      | (Except.error e, st3) => (Except.error e, st3)
      | (Except.ok value, st3) =>
        btree_map_decode_loop C pc k (btree_insert key value map) st3

/-- `BTreeMap::<K, V>::decode` (impl_alloc.rs lines 104-118): read the
length, pre-claim `len * size_of::<(K, V)>()`, then run the per-pair
refund-then-decode loop starting from the empty map. -/
def btree_map_decode [LinearOrder κ] (C : Cfg) (pc : PairCodec κ ν)
    (st : DState) : Except DecodeError (List (κ × ν)) × DState :=
  match decode_slice_len C st with
  | (Except.error e, st1) => (Except.error e, st1)
  | (Except.ok len, st1) =>
    match claim_container_read C pc.size len st1 with
    | (Except.error e, st2) => (Except.error e, st2)
    | (Except.ok _, st2) => btree_map_decode_loop C pc len [] st2

/-- Net `bytes_read` contribution of the pair decodes along a successful run
of `btree_map_decode_loop`. -/
def pairClaimSum (C : Cfg) (pc : PairCodec κ ν) : Nat → DState → Int
  | 0, _ => 0
  | k + 1, st =>
    match pc.decK C (unclaimD C pc.size st) with
    | (Except.error _, _) => 0
    | (Except.ok _, st2) =>
      match pc.decV C st2 with
      | (Except.error _, _) => 0
      | (Except.ok _, st3) =>
        ((st3.bytes_read : Int) - ((unclaimD C pc.size st).bytes_read : Int)) +
          pairClaimSum C pc k st3

/-! ## Encode side (impl_alloc.rs) -/

/-- `Vec::<u8>::encode` (impl_alloc.rs lines 319-329, `T = u8` branch): the
length followed by the contiguous byte run.  `encode_to_vec`
(lines 54-64) sizes the buffer with a first pass and then collects these
bytes; the `VecWriter` never fails, so the produced bytes are exactly
these. -/
def vec_u8_encode (v : List Nat) : List Nat :=
  encode_slice_len v.length ++ v

/-- `Vec::<T>::encode`, generic branch (impl_alloc.rs lines 319-324 and
330-335): the length followed by each element's encoding in order. -/
def vec_encode (enc : α → List Nat) (v : List α) : List Nat :=
  encode_slice_len v.length ++ v.flatMap enc

/-- `Cow` (alloc::borrow::Cow): a borrowed or an owned value; its `PartialEq`
compares the dereferenced contents. -/
inductive Cow (α : Type) where
  | borrowed (a : α)
  | owned (a : α)
  deriving DecidableEq, Repr

/-- The dereferenced contents of a `Cow` (what `PartialEq` compares). -/
def Cow.value : Cow α → α
  | Cow.borrowed a => a
  | Cow.owned a => a

/-- `Cow::encode` (impl_alloc.rs lines 437-445) over a byte-run payload such
as `Cow<str>` or `Cow<[u8]>`: encode the dereferenced contents. -/
def cow_bytes_encode (c : Cow (List Nat)) : List Nat :=
  vec_u8_encode c.value

/-- `Cow::decode` (impl_alloc.rs lines 414-423) over a byte-run payload:
decode owned contents and wrap them in `Cow::Owned`. -/
def cow_bytes_decode (C : Cfg) (st : DState) :
    Except DecodeError (Cow (List Nat)) × DState :=
  match vec_u8_decode C st with
  | (Except.error e, st1) => (Except.error e, st1)
  | (Except.ok v, st1) => (Except.ok (Cow.owned v), st1)

/-- Modelled from the spec: the borrowed byte-run decode behind
`Cow::borrow_decode` (impl_alloc.rs lines 424-435; the `&[u8]`/`&str`
implementations live in files not among the sources) — "a borrowing
Reader additionally can return a slice referencing the original buffer"
(spec §3): read the length, claim it, take the slice. -/
def borrowed_bytes_decode (C : Cfg) (st : DState) :
    Except DecodeError (List Nat) × DState :=
  match decode_slice_len C st with
  | (Except.error e, st1) => (Except.error e, st1)
  | (Except.ok len, st1) =>
    match claimD C len st1 with
    | (Except.error e, st2) => (Except.error e, st2)
    | (Except.ok _, st2) => readBytes len st2

/-- `Cow::borrow_decode` (impl_alloc.rs lines 424-435) over a byte-run
payload: borrow-decode the contents and wrap them in `Cow::Borrowed`. -/
def cow_bytes_borrow_decode (C : Cfg) (st : DState) :
    Except DecodeError (Cow (List Nat)) × DState :=
  match borrowed_bytes_decode C st with
  | (Except.error e, st1) => (Except.error e, st1)
  | (Except.ok v, st1) => (Except.ok (Cow.borrowed v), st1)

/-! ## Structured-value bridge (features/serde/de_owned.rs) -/

/-- Modelled from the spec: `u32::decode` (the integer decode routines of
de/impl_core.rs are not among the sources) — "Enum requests decode a
4-byte variant index" (spec §4.5): claim four bytes, read four bytes,
combine them in the Config's byte order. -/
def u32_decode (C : Cfg) (st : DState) : Except DecodeError Nat × DState :=
  match claimD C 4 st with
  | (Except.error e, st1) => (Except.error e, st1)
  | (Except.ok _, st1) =>
    match readBytes 4 st1 with
    | (Except.error e, st2) => (Except.error e, st2)
    | (Except.ok bs, st2) =>
      match C.order with
      | ByteOrder.little => (Except.ok (fromLEBytes bs), st2)
      | ByteOrder.big => (Except.ok (fromLEBytes bs.reverse), st2)

/-- `EnumAccess::variant_seed` (de_owned.rs lines 482-489): decode the `u32`
variant index, feed it to the seed (which does not touch the stream), and
return the value. -/
def variant_seed (C : Cfg) (seed : Nat → Except DecodeError β) (st : DState) :
    Except DecodeError β × DState :=
  match u32_decode C st with
  | (Except.error e, st1) => (Except.error e, st1)
  | (Except.ok idx, st1) =>
    match seed idx with
    | Except.error e => (Except.error e, st1)
    | Except.ok val => (Except.ok val, st1)

/-- `VariantAccess::unit_variant` (de_owned.rs lines 495-497): `Ok(())`,
consuming nothing. -/
def unit_variant (st : DState) : Except DecodeError Unit × DState :=
  (Except.ok (), st)

/-- The `Access` state handed to the visitor by `deserialize_tuple`
(de_owned.rs lines 330-333): the remaining element count. -/
structure SeqAccessState where
  len : Nat
  deriving DecidableEq, Repr

/-- `SeqAccess::next_element_seed` (de_owned.rs lines 338-354): if elements
remain, decrement the count and decode one through the seed; otherwise
return `none` without touching the stream. -/
def next_element_seed (C : Cfg)
    (seedDec : Cfg → DState → Except DecodeError α × DState)
    (acc : SeqAccessState) (st : DState) :
    Except DecodeError (Option α) × SeqAccessState × DState :=
  if 0 < acc.len then
    match seedDec C st with
    | (Except.error e, st') => (Except.error e, ⟨acc.len - 1⟩, st')
    | (Except.ok v, st') => (Except.ok (some v), ⟨acc.len - 1⟩, st')
  else (Except.ok none, acc, st)

/-- The canonical tuple visitor driving `next_element_seed` once per
declared element (the visitor generated for a tuple or struct of `len`
fields pulls exactly `len` elements). -/
def tupleLoop (C : Cfg)
    (seedDec : Cfg → DState → Except DecodeError α × DState) :
    Nat → DState → Except DecodeError (List α) × DState
  | 0, st => (Except.ok [], st)
  | k + 1, st =>
    match next_element_seed C seedDec ⟨k + 1⟩ st with
    | (Except.error e, _, st') => (Except.error e, st')
    | (Except.ok none, _, st') => (Except.ok [], st')
    | (Except.ok (some v), _, st') =>
      match tupleLoop C seedDec k st' with
      | (Except.error e, st2) => (Except.error e, st2)
      | (Except.ok vs, st2) => (Except.ok (v :: vs), st2)

/-- `deserialize_tuple` (de_owned.rs lines 326-365): the element count is the
`len` argument supplied by the caller's declared shape; nothing is read
from the stream to obtain it. -/
def deserialize_tuple (C : Cfg)
    (seedDec : Cfg → DState → Except DecodeError α × DState)
    (len : Nat) (st : DState) : Except DecodeError (List α) × DState :=
  tupleLoop C seedDec len st

/-- `deserialize_seq` (de_owned.rs lines 318-324): read the length from the
stream, then use the tuple path. -/
def deserialize_seq (C : Cfg)
    (seedDec : Cfg → DState → Except DecodeError α × DState)
    (st : DState) : Except DecodeError (List α) × DState :=
  match decode_slice_len C st with
  | (Except.error e, st1) => (Except.error e, st1)
  | (Except.ok len, st1) => deserialize_tuple C seedDec len st1

/-- `VariantAccess::tuple_variant` (de_owned.rs lines 506-511): delegates to
`deserialize_tuple` with the statically supplied length. -/
def tuple_variant (C : Cfg)
    (seedDec : Cfg → DState → Except DecodeError α × DState)
    (len : Nat) (st : DState) : Except DecodeError (List α) × DState :=
  deserialize_tuple C seedDec len st

/-- `VariantAccess::struct_variant` (de_owned.rs lines 513-522): delegates to
`deserialize_tuple` with the declared field-list length. -/
def struct_variant (C : Cfg)
    (seedDec : Cfg → DState → Except DecodeError α × DState)
    (fields : List φ) (st : DState) : Except DecodeError (List α) × DState :=
  deserialize_tuple C seedDec fields.length st

/-- Modelled from the spec: `crate::de::decode_option_variant` (de/mod.rs is
not among the sources) — "Option-like values decode a variant
discriminant (0 = absent, 1 = present)" (spec §4.5); any other value is
an invalid-encoded-value failure. -/
def decode_option_variant (C : Cfg) (st : DState) :
    Except DecodeError (Option Unit) × DState :=
  match u8_decode C st with
  | (Except.error e, st1) => (Except.error e, st1)
  | (Except.ok b, st1) =>
    if b = 0 then (Except.ok none, st1)
    else if b = 1 then (Except.ok (some ()), st1)
    else (Except.error (DecodeError.unexpectedVariant b), st1)

/-- `deserialize_option` (de_owned.rs lines 277-287): decode the
discriminant; on present, delegate to the visitor's some handler (the
payload decode), on absent call the visitor's none handler. -/
def deserialize_option (C : Cfg)
    (payloadDec : Cfg → DState → Except DecodeError α × DState)
    (st : DState) : Except DecodeError (Option α) × DState :=
  match decode_option_variant C st with
  | (Except.error e, st1) => (Except.error e, st1)
  | (Except.ok (some _), st1) =>
    match payloadDec C st1 with
    | (Except.error e, st2) => (Except.error e, st2)
    | (Except.ok a, st2) => (Except.ok (some a), st2)
  | (Except.ok none, st1) => (Except.ok none, st1)

/-- `deserialize_any` (de_owned.rs lines 105-110): always
`AnyNotSupported`, the visitor is never called and the decoder is
untouched. -/
def deserialize_any (α : Type) (st : DState) : Except DecodeError α × DState :=
  (Except.error DecodeError.anyNotSupported, st)

/-- `deserialize_identifier` (de_owned.rs lines 459-464): always
`IdentifierNotSupported`. -/
def deserialize_identifier (α : Type) (st : DState) :
    Except DecodeError α × DState :=
  (Except.error DecodeError.identifierNotSupported, st)

/-- `deserialize_ignored_any` (de_owned.rs lines 466-471): always
`IgnoredAnyNotSupported`. -/
def deserialize_ignored_any (α : Type) (st : DState) :
    Except DecodeError α × DState :=
  (Except.error DecodeError.ignoredAnyNotSupported, st)

end Bincode

namespace Bincode

/-! ## Theorems: the byte-budget accountant (C2, C10, C3) -/

/-- C2: with a limit, `claim_bytes_read n` succeeds adding `n` to the counter
exactly when the sum neither overflows `usize` nor exceeds the limit, and
fails with `LimitExceeded` otherwise; without a limit both operations are
no-ops that always succeed. -/
theorem claim_bytes_read_spec (br n limit : Nat) (o : ByteOrder) :
    (((claim_bytes_read ⟨some limit, o⟩ br n).1 = Except.ok () ∧
      (claim_bytes_read ⟨some limit, o⟩ br n).2 = br + n) ↔
      (br + n ≤ USIZE_MAX ∧ br + n ≤ limit)) ∧
    (¬(br + n ≤ USIZE_MAX ∧ br + n ≤ limit) →
      (claim_bytes_read ⟨some limit, o⟩ br n).1 =
        Except.error DecodeError.limitExceeded) ∧
    (claim_bytes_read ⟨none, o⟩ br n = (Except.ok (), br)) ∧
    (unclaim_bytes_read ⟨none, o⟩ br n = br) := by
  unfold claim_bytes_read unclaim_bytes_read checked_add
  by_cases hov : br + n ≤ USIZE_MAX
  · by_cases hl : br + n ≤ limit
    · simp [hov, hl, Nat.not_lt.mpr hl]
    · simp [hov, hl, Nat.lt_of_not_le hl]
  · simp [hov]

/-- Witness for `claim_bytes_read_spec` at `br = 3`, `n = 4`, `limit = 10`. -/
theorem claim_bytes_read_spec_witness :
    (claim_bytes_read ⟨some 10, ByteOrder.little⟩ 3 4).1 = Except.ok () ∧
    (claim_bytes_read ⟨some 10, ByteOrder.little⟩ 3 4).2 = 3 + 4 :=
  (claim_bytes_read_spec 3 4 10 ByteOrder.little).1.mpr (by decide)

/-- C10: on the exceed-limit failure (no overflow) the counter has already
been increased by `n` when the error is returned; on the overflow failure
the counter is left unchanged — the two failure causes leave different
counter states. -/
theorem claim_bytes_read_error_states (br n limit : Nat) (o : ByteOrder) :
    (br + n ≤ USIZE_MAX → br + n > limit →
      claim_bytes_read ⟨some limit, o⟩ br n =
        (Except.error DecodeError.limitExceeded, br + n)) ∧
    (br + n > USIZE_MAX →
      claim_bytes_read ⟨some limit, o⟩ br n =
        (Except.error DecodeError.limitExceeded, br)) := by
  unfold claim_bytes_read checked_add
  constructor
  · intro hov hl
    simp [hov, hl]
  · intro hov
    simp [Nat.not_le.mpr hov]

/-- Witness for `claim_bytes_read_error_states`: exceeding a limit of `5`
with `3 + 4` leaves the counter at `7`; overflowing `usize` leaves it at
its old value. -/
theorem claim_bytes_read_error_states_witness :
    claim_bytes_read ⟨some 5, ByteOrder.little⟩ 3 4 =
      (Except.error DecodeError.limitExceeded, 7) ∧
    claim_bytes_read ⟨some 5, ByteOrder.little⟩ 3 (2 ^ 64) =
      (Except.error DecodeError.limitExceeded, 3) :=
  ⟨(claim_bytes_read_error_states 3 4 5 ByteOrder.little).1 (by decide)
      (by decide),
   (claim_bytes_read_error_states 3 (2 ^ 64) 5 ByteOrder.little).2
      (by norm_num [USIZE_MAX])⟩

/-- `claim_bytes_read` never decreases the counter, whatever the outcome. -/
theorem claim_bytes_read_mono (C : Cfg) (br n : Nat) :
    br ≤ (claim_bytes_read C br n).2 := by
  unfold claim_bytes_read checked_add
  cases C.limit with
  | none => exact Nat.le_refl br
  | some limit =>
    by_cases hov : br + n ≤ USIZE_MAX
    · by_cases hl : br + n > limit <;> simp [hov, hl, Nat.le_add_right]
    · simp [hov]

/-- Helper: a successful claim keeps the counter within the limit. -/
theorem claim_bytes_read_le_limit (limit br n br' : Nat) (o : ByteOrder)
    (h : claim_bytes_read ⟨some limit, o⟩ br n =
      (Except.ok (), br')) : br' ≤ limit := by
  unfold claim_bytes_read checked_add at h
  by_cases hov : br + n ≤ USIZE_MAX
  · by_cases hl : br + n > limit
    · simp [hov, hl] at h
    · simp [hov, hl] at h
      omega
  · simp [hov] at h

/-- Helper: a successful accounting session starting within the limit ends
within the limit. -/
theorem runAccOps_le_limit (limit : Nat) (o : ByteOrder) (ops : List AccOp) :
    ∀ br br', br ≤ limit →
      runAccOps ⟨some limit, o⟩ ops br = Except.ok br' →
      br' ≤ limit := by
  induction ops with
  | nil =>
    intro br br' hbr h
    simp [runAccOps] at h
    omega
  | cons op ops ih =>
    intro br br' hbr h
    cases op with
    | claimOp n =>
      simp only [runAccOps] at h
      rcases hc : claim_bytes_read ⟨some limit, o⟩ br n with ⟨r, br1⟩
      cases r with
      | error e => rw [hc] at h; simp at h
      | ok u =>
        rw [hc] at h
        simp only at h
        exact ih br1 br'
          (claim_bytes_read_le_limit limit br n br1 o (by rw [hc])) h
    | unclaimOp n =>
      simp only [runAccOps] at h
      refine ih _ br' ?_ h
      unfold unclaim_bytes_read
      simp only [Option.isSome_some, if_true]
      omega

/-- C3: a fresh `DecoderImpl` starts with `bytes_read = 0`; the counter is
monotonically non-decreasing under `claim_bytes_read` (so `unclaim` is the
only decreasing operation); and along any successful decode session with a
limit the counter never exceeds the limit. -/
theorem bytes_read_session_invariant :
    (∀ (reader : List Nat) (C : Cfg) (ctx : Ctx),
      (DecoderImpl.new reader C ctx).bytes_read = 0) ∧
    (∀ (C : Cfg) (br n : Nat), br ≤ (claim_bytes_read C br n).2) ∧
    (∀ (limit : Nat) (o : ByteOrder) (ops : List AccOp) (br' : Nat),
      runAccOps ⟨some limit, o⟩ ops 0 = Except.ok br' →
      br' ≤ limit) :=
  ⟨fun _ _ _ => rfl, claim_bytes_read_mono,
   fun limit o ops br' h =>
     runAccOps_le_limit limit o ops 0 br' (Nat.zero_le limit) h⟩

/-- Witness for `bytes_read_session_invariant`: a session that claims 3,
refunds 2 and claims 4 under limit 6 ends at `5 ≤ 6`. -/
theorem bytes_read_session_invariant_witness :
    (DecoderImpl.new [1, 2] ⟨some 6, ByteOrder.little⟩ ()).bytes_read = 0 ∧
    (5 : Nat) ≤ 6 :=
  ⟨(@bytes_read_session_invariant Unit).1 [1, 2]
      ⟨some 6, ByteOrder.little⟩ (),
   (@bytes_read_session_invariant Unit).2.2 6 ByteOrder.little
      [AccOp.claimOp 3, AccOp.unclaimOp 2, AccOp.claimOp 4] 5 (by rfl)⟩

/-! ## Theorems: the context-substitution wrapper (C9) -/

/-- Helper: no wrapper operation ever changes the outer decoder's context. -/
theorem runOps_outer_context (ops : List (WrapOp C)) :
    ∀ w : WithContext Ctx C,
      (WithContext.runOps ops w).decoder.context = w.decoder.context := by
  induction ops with
  | nil => intro w; rfl
  | cons op ops ih =>
    intro w
    cases op with
    | claimOp n =>
      rw [WithContext.runOps, ih]
      rfl
    | unclaimOp n =>
      rw [WithContext.runOps, ih]
      rfl
    | readOp n =>
      rw [WithContext.runOps, ih]
      unfold WithContext.readerRead
      by_cases h : n ≤ w.decoder.reader.length <;> simp [h]
    | setContextOp c =>
      rw [WithContext.runOps, ih]

/-- C9: `WithContext` presents the substituted context through `context()`,
while `config()`, `reader()`, `claim_bytes_read` and `unclaim_bytes_read`
delegate exactly to the outer decoder (same results, same effect on the
outer decoder's state), and an inner decode through the wrapper leaves the
outer decoder's own context value unchanged. -/
theorem withContext_spec :
    (∀ (d : DecoderImpl Ctx) (c : C),
      (WithContext.mk d c).contextOf = c) ∧
    (∀ w : WithContext Ctx C, w.configOf = w.decoder.config) ∧
    (∀ (w : WithContext Ctx C) (n : Nat),
      (w.claim n).1 = (w.decoder.claim n).1 ∧
      (w.claim n).2.decoder = (w.decoder.claim n).2 ∧
      (w.claim n).2.context = w.context) ∧
    (∀ (w : WithContext Ctx C) (n : Nat),
      (w.unclaim n).decoder = w.decoder.unclaim n ∧
      (w.unclaim n).context = w.context) ∧
    (∀ (w : WithContext Ctx C) (n : Nat),
      (w.readerRead n).1 =
        (if n ≤ w.decoder.reader.length then
          Except.ok (w.decoder.reader.take n)
        else Except.error DecodeError.unexpectedEnd) ∧
      (w.readerRead n).2.context = w.context) ∧
    (∀ (ops : List (WrapOp C)) (w : WithContext Ctx C),
      (WithContext.runOps ops w).decoder.context = w.decoder.context) := by
  refine ⟨fun _ _ => rfl, fun _ => rfl, fun w n => ⟨rfl, rfl, rfl⟩,
    fun w n => ⟨rfl, rfl⟩, fun w n => ⟨?_, ?_⟩, runOps_outer_context⟩
  · unfold WithContext.readerRead
    by_cases h : n ≤ w.decoder.reader.length <;> simp [h]
  · unfold WithContext.readerRead
    by_cases h : n ≤ w.decoder.reader.length <;> simp [h]

/-! ## Theorems: the structured-value bridge (C8, C6, C7) -/

/-- C8: `deserialize_any`, `deserialize_identifier` and
`deserialize_ignored_any` always return their respective
unsupported-operation error, with the decoder state (stream and
accountant) untouched. -/
theorem bridge_rejects_unknown_requests :
    ∀ (α : Type) (st : DState),
      deserialize_any α st =
        (Except.error DecodeError.anyNotSupported, st) ∧
      deserialize_identifier α st =
        (Except.error DecodeError.identifierNotSupported, st) ∧
      deserialize_ignored_any α st =
        (Except.error DecodeError.ignoredAnyNotSupported, st) :=
  fun _ _ => ⟨rfl, rfl, rfl⟩

/-- Helper: a claim does not touch the input stream. -/
theorem claimD_snd_input (C : Cfg) (n : Nat) (st : DState) :
    ((claimD C n st).2).input = st.input := rfl

/-- Helper: shape of a successful `Reader` pull — `n` bytes move from the
input to the result, the accountant is untouched. -/
theorem readBytes_ok (n : Nat) (st : DState) (bs : List Nat) (st' : DState)
    (h : readBytes n st = (Except.ok bs, st')) :
    bs = st.input.take n ∧ st'.input = st.input.drop n ∧
    st'.bytes_read = st.bytes_read ∧ n ≤ st.input.length := by
  unfold readBytes at h
  split at h
  · rename_i hle
    simp only [Prod.mk.injEq, Except.ok.injEq] at h
    rcases h with ⟨hbs, hst⟩
    subst hbs
    subst hst
    exact ⟨rfl, rfl, rfl, hle⟩
  · simp at h

/-- Helper: a successful `u32` decode consumes exactly four input bytes. -/
theorem u32_decode_ok_shape (C : Cfg) (st : DState) (v : Nat) (st' : DState)
    (h : u32_decode C st = (Except.ok v, st')) :
    st'.input = st.input.drop 4 ∧ 4 ≤ st.input.length := by
  unfold u32_decode at h
  split at h
  · simp at h
  · rename_i u st1 heq
    have hst1 : st1 = (claimD C 4 st).2 := by rw [heq]
    split at h
    · simp at h
    · rename_i bs st2 heq2
      have hr := readBytes_ok 4 st1 bs st2 heq2
      split at h <;>
        · simp only [Prod.mk.injEq, Except.ok.injEq] at h
          rcases h with ⟨_, hst⟩
          subst hst
          constructor
          · rw [hr.2.1, hst1]
            rfl
          · have h4 := hr.2.2.2
            rw [hst1] at h4
            exact h4

/-- Helper: a successful `deserialize_tuple` of declared length `len` yields
exactly `len` elements. -/
theorem tupleLoop_length (C : Cfg)
    (sd : Cfg → DState → Except DecodeError α × DState) :
    ∀ (len : Nat) (st : DState) (v : List α) (st' : DState),
      tupleLoop C sd len st = (Except.ok v, st') → v.length = len := by
  intro len
  induction len with
  | zero =>
    intro st v st' h
    simp only [tupleLoop] at h
    cases h
    rfl
  | succ k ih =>
    intro st v st' h
    simp only [tupleLoop, next_element_seed, Nat.succ_sub_one] at h
    rw [if_pos (Nat.succ_pos k)] at h
    rcases hsd : sd C st with ⟨r, st1⟩
    rw [hsd] at h
    cases r with
    | error e => simp at h
    | ok a =>
      simp only at h
      rcases hrec : tupleLoop C sd k st1 with ⟨r2, st2⟩
      rw [hrec] at h
      cases r2 with
      | error e => simp at h
      | ok vs =>
        simp only [Prod.mk.injEq, Except.ok.injEq] at h
        rcases h with ⟨hv, _⟩
        subst hv
        simp [ih st1 vs st2 (by rw [hrec])]

/-- C6: the enum path of the bridge decodes a 4-byte variant index
(consuming exactly those four bytes), a unit variant consumes nothing
further, and tuple/struct variants go through `deserialize_tuple` with the
statically supplied count (tuple length, field-list length), which on
success yields exactly that many elements — the count is never read from
the stream. -/
theorem enum_bridge_spec :
    (∀ (C : Cfg) (seed : Nat → Except DecodeError β) (st : DState)
        (v : β) (st' : DState),
      variant_seed C seed st = (Except.ok v, st') →
      st'.input = st.input.drop 4 ∧ 4 ≤ st.input.length) ∧
    (∀ st : DState, unit_variant st = (Except.ok (), st)) ∧
    (∀ (C : Cfg) (sd : Cfg → DState → Except DecodeError α × DState)
        (len : Nat) (st : DState),
      tuple_variant C sd len st = deserialize_tuple C sd len st) ∧
    (∀ (φ : Type) (C : Cfg) (sd : Cfg → DState → Except DecodeError α × DState)
        (fields : List φ) (st : DState),
      struct_variant C sd fields st = deserialize_tuple C sd fields.length st) ∧
    (∀ (C : Cfg) (sd : Cfg → DState → Except DecodeError α × DState)
        (len : Nat) (st : DState) (v : List α) (st' : DState),
      deserialize_tuple C sd len st = (Except.ok v, st') → v.length = len) := by
  refine ⟨?_, fun _ => rfl, fun _ _ _ _ => rfl, fun _ _ _ _ _ => rfl,
    fun C sd len st v st' h => tupleLoop_length C sd len st v st' h⟩
  intro C seed st v st' h
  unfold variant_seed at h
  split at h
  · simp at h
  · rename_i idx st1 heq
    split at h
    · simp at h
    · simp only [Prod.mk.injEq, Except.ok.injEq] at h
      rcases h with ⟨_, hst⟩
      subst hst
      exact u32_decode_ok_shape C st idx st1 heq

/-- Witness for `enum_bridge_spec`: decoding variant index 7 from
`[7, 0, 0, 0]` consumes exactly the four index bytes, and a
`deserialize_tuple` of declared length 2 over `[5, 6]` yields two
elements. -/
theorem enum_bridge_spec_witness :
    (([] : List Nat) = ([7, 0, 0, 0] : List Nat).drop 4 ∧
      4 ≤ ([7, 0, 0, 0] : List Nat).length) ∧
    ([5, 6] : List Nat).length = 2 :=
  ⟨(enum_bridge_spec (β := Nat) (α := Nat)).1 ⟨none, ByteOrder.little⟩
      (fun idx => Except.ok idx) ⟨[7, 0, 0, 0], 0⟩ 7 ⟨[], 0⟩ (by rfl),
   (enum_bridge_spec (β := Nat) (α := Nat)).2.2.2.2 ⟨none, ByteOrder.little⟩
      u8_decode 2 ⟨[5, 6], 0⟩ [5, 6] ⟨[], 0⟩ (by rfl)⟩

/-- C7: `deserialize_option` reads one discriminant byte: 0 yields `none`
consuming nothing beyond the discriminant, 1 delegates to the payload
decode, and any other value fails with an invalid-encoded-value error. -/
theorem deserialize_option_spec (C : Cfg)
    (pd : Cfg → DState → Except DecodeError α × DState)
    (st : DState) (b : Nat) (rest : List Nat)
    (hin : st.input = b :: rest)
    (hclaim : (claim_bytes_read C st.bytes_read 1).1 = Except.ok ()) :
    (b = 0 → deserialize_option C pd st =
      (Except.ok none, ⟨rest, (claim_bytes_read C st.bytes_read 1).2⟩)) ∧
    (b = 1 → deserialize_option C pd st =
      (match pd C ⟨rest, (claim_bytes_read C st.bytes_read 1).2⟩ with
       | (Except.error e, st2) => (Except.error e, st2)
       | (Except.ok a, st2) => (Except.ok (some a), st2))) ∧
    (2 ≤ b → deserialize_option C pd st =
      (Except.error (DecodeError.unexpectedVariant b),
       ⟨rest, (claim_bytes_read C st.bytes_read 1).2⟩)) := by
  have hread : u8_decode C st =
      (Except.ok b, ⟨rest, (claim_bytes_read C st.bytes_read 1).2⟩) := by
    unfold u8_decode claimD
    rcases hc : claim_bytes_read C st.bytes_read 1 with ⟨r, br'⟩
    rw [hc] at hclaim
    simp only at hclaim
    subst hclaim
    simp only [readByte]
    rw [show ({ st with bytes_read := br' } : DState).input = b :: rest from hin]
  refine ⟨?_, ?_, ?_⟩
  · intro hb
    subst hb
    unfold deserialize_option decode_option_variant
    rw [hread]
    rfl
  · intro hb
    subst hb
    unfold deserialize_option decode_option_variant
    rw [hread]
    rfl
  · intro hb
    unfold deserialize_option decode_option_variant
    rw [hread]
    have h0 : ¬(b = 0) := by omega
    have h1 : ¬(b = 1) := by omega
    simp [h0, h1]

/-! ## Theorems: the byte-run fast path (C5) -/

/-- Helper: what a successful claim does to the counter, by limit shape. -/
theorem claim_bytes_read_ok (C : Cfg) (br n : Nat) (r : Unit) (br' : Nat)
    (h : claim_bytes_read C br n = (Except.ok r, br')) :
    (C.limit = none → br' = br) ∧
    (∀ l, C.limit = some l → br' = br + n ∧ br + n ≤ l ∧ br + n ≤ USIZE_MAX) := by
  unfold claim_bytes_read checked_add at h
  constructor
  · intro hnone
    rw [hnone] at h
    simp only [Prod.mk.injEq] at h
    exact h.2.symm
  · intro l hsome
    rw [hsome] at h
    by_cases hov : br + n ≤ USIZE_MAX
    · rw [if_pos hov] at h
      simp only at h
      by_cases hl : br + n > l
      · rw [if_pos hl] at h
        simp at h
      · rw [if_neg hl] at h
        simp only [Prod.mk.injEq] at h
        exact ⟨h.2.symm, Nat.le_of_not_lt hl, hov⟩
    · rw [if_neg hov] at h
      simp at h

/-- Helper: under the loop's counter guard, the refund-then-`u8::decode`
step of the generic loop is exactly a one-byte pull of the reader. -/
theorem u8_decode_unclaim (C : Cfg) (st : DState)
    (hguard : ∀ l, C.limit = some l →
      1 ≤ st.bytes_read ∧ st.bytes_read ≤ l ∧ st.bytes_read ≤ USIZE_MAX) :
    u8_decode C (unclaimD C 1 st) = readByte st := by
  have hclaim : claimD C 1 (unclaimD C 1 st) = (Except.ok (), st) := by
    unfold claimD unclaimD claim_bytes_read unclaim_bytes_read checked_add
    cases hL : C.limit with
    | none => simp
    | some l =>
      rcases hguard l hL with ⟨h1, h2, h3⟩
      simp only [hL, Option.isSome_some, if_true]
      have he : st.bytes_read - 1 + 1 = st.bytes_read := by omega
      rw [he]
      rw [if_pos h3]
      simp [Nat.not_lt.mpr h2]
  unfold u8_decode
  rw [hclaim]

/-- Helper: the generic refund-then-decode loop at element type `u8` is the
single `len`-byte read of the fast path — same result, and the same final
state on success. -/
theorem vec_loop_u8_eq_read (C : Cfg) :
    ∀ (len : Nat) (st : DState),
      (∀ l, C.limit = some l →
        len ≤ st.bytes_read ∧ st.bytes_read ≤ l ∧ st.bytes_read ≤ USIZE_MAX) →
      ((readBytes len st).1 = (vec_decode_loop C u8Codec len st).1 ∧
       (∀ v st', readBytes len st = (Except.ok v, st') →
         vec_decode_loop C u8Codec len st = (Except.ok v, st'))) := by
  intro len
  induction len with
  | zero =>
    intro st hguard
    constructor
    · simp [readBytes, vec_decode_loop]
    · intro v st' h
      simp only [readBytes, Nat.zero_le, if_pos, List.take_zero, List.drop_zero,
        Prod.mk.injEq, Except.ok.injEq] at h
      rcases h with ⟨hv, hst⟩
      subst hv
      rw [vec_decode_loop]
      rw [← hst]
  | succ k ih =>
    intro st hguard
    have hstep : u8Codec.dec C (unclaimD C u8Codec.size st) = readByte st := by
      refine u8_decode_unclaim C st ?_
      intro l hL
      rcases hguard l hL with ⟨h1, h2, h3⟩
      exact ⟨by omega, h2, h3⟩
    rcases hin : st.input with _ | ⟨b, rest⟩
    · have hrb : readByte st = (Except.error DecodeError.unexpectedEnd, st) := by
        unfold readByte
        rw [hin]
      constructor
      · rw [vec_decode_loop, hstep, hrb]
        unfold readBytes
        rw [hin]
        simp
      · intro v st' h
        unfold readBytes at h
        rw [hin] at h
        simp at h
    · have hrb : readByte st = (Except.ok b, ⟨rest, st.bytes_read⟩) := by
        unfold readByte
        rw [hin]
      have hguard' : ∀ l, C.limit = some l →
          k ≤ (⟨rest, st.bytes_read⟩ : DState).bytes_read ∧
          (⟨rest, st.bytes_read⟩ : DState).bytes_read ≤ l ∧
          (⟨rest, st.bytes_read⟩ : DState).bytes_read ≤ USIZE_MAX := by
        intro l hL
        rcases hguard l hL with ⟨h1, h2, h3⟩
        dsimp only
        exact ⟨by omega, h2, h3⟩
      have ihr := ih ⟨rest, st.bytes_read⟩ hguard'
      by_cases hk : k ≤ rest.length
      · have hrk : readBytes k ⟨rest, st.bytes_read⟩ =
            (Except.ok (rest.take k), ⟨rest.drop k, st.bytes_read⟩) := by
          unfold readBytes
          rw [if_pos hk]
        have hloopk : vec_decode_loop C u8Codec k ⟨rest, st.bytes_read⟩ =
            (Except.ok (rest.take k), ⟨rest.drop k, st.bytes_read⟩) :=
          ihr.2 (rest.take k) ⟨rest.drop k, st.bytes_read⟩ hrk
        have hfull : readBytes (k + 1) st =
            (Except.ok (b :: rest.take k), ⟨rest.drop k, st.bytes_read⟩) := by
          unfold readBytes
          rw [hin]
          simp only [List.length_cons, List.take_succ_cons, List.drop_succ_cons]
          rw [if_pos (by omega)]
        have hloop : vec_decode_loop C u8Codec (k + 1) st =
            (Except.ok (b :: rest.take k), ⟨rest.drop k, st.bytes_read⟩) := by
          rw [vec_decode_loop, hstep, hrb]
          simp only [hloopk]
        constructor
        · rw [hfull, hloop]
        · intro v st' h
          rw [hfull] at h
          simp only [Prod.mk.injEq, Except.ok.injEq] at h
          rcases h with ⟨hv, hst⟩
          subst hv
          rw [hloop, hst]
      · have hrk1 : (readBytes k (⟨rest, st.bytes_read⟩ : DState)).1 =
            Except.error DecodeError.unexpectedEnd := by
          unfold readBytes
          rw [if_neg (by simpa using hk)]
        have hloopk1 : (vec_decode_loop C u8Codec k ⟨rest, st.bytes_read⟩).1 =
            Except.error DecodeError.unexpectedEnd := by
          rw [← ihr.1, hrk1]
        constructor
        · rw [vec_decode_loop, hstep, hrb]
          rcases hlk : vec_decode_loop C u8Codec k ⟨rest, st.bytes_read⟩
            with ⟨rk, stk⟩
          rw [hlk] at hloopk1
          simp only at hloopk1
          subst hloopk1
          unfold readBytes
          rw [hin]
          rw [if_neg (by simp; omega)]
          simp [hlk]
        · intro v st' h
          unfold readBytes at h
          rw [hin] at h
          rw [if_neg (by simp; omega)] at h
          simp at h

/-- C5: `Vec::<u8>::decode` via the fast path (single pre-claim, single
`len`-byte read, no per-element refund) returns the same result as the
generic refund-then-decode loop at element type `u8`, and on success
leaves the decoder in the same final state (same net bytes claimed, same
stream position). -/
theorem vec_u8_fast_path_equiv (C : Cfg) (st : DState) :
    (vec_u8_decode C st).1 = (vec_decode_generic C u8Codec st).1 ∧
    (∀ v st', vec_u8_decode C st = (Except.ok v, st') →
      vec_decode_generic C u8Codec st = (Except.ok v, st')) := by
  rcases h1 : decode_slice_len C st with ⟨r1, st1⟩
  cases r1 with
  | error e =>
    constructor
    · simp only [vec_u8_decode, vec_decode_generic, h1]
    · intro v st' h
      simp only [vec_u8_decode, h1] at h
      simp at h
  | ok len =>
    rcases h2 : claim_container_read C u8Codec.size len st1 with ⟨r2, st2⟩
    have h2u : claim_container_read C 1 len st1 = (r2, st2) := h2
    cases r2 with
    | error e =>
      constructor
      · simp only [vec_u8_decode, vec_decode_generic, h1, h2, h2u]
      · intro v st' h
        simp only [vec_u8_decode, h1, h2u] at h
        simp at h
    | ok u =>
      have hguard : ∀ l, C.limit = some l →
          len ≤ st2.bytes_read ∧ st2.bytes_read ≤ l ∧
          st2.bytes_read ≤ USIZE_MAX := by
        rcases hc : claim_bytes_read C st1.bytes_read (len * 1) with ⟨rc, brc⟩
        have hpair := h2u
        simp only [claim_container_read, claimD] at hpair
        rw [hc] at hpair
        simp only [Prod.mk.injEq] at hpair
        rcases hpair with ⟨hrc, hst2⟩
        subst hrc
        have hbr2 : st2.bytes_read = brc := by
          rw [← hst2]
        intro l hL
        rcases (claim_bytes_read_ok C st1.bytes_read (len * 1) u brc hc).2
          l hL with ⟨hbr, hle, hmax⟩
        refine ⟨by omega, by omega, by omega⟩
      have hmain := vec_loop_u8_eq_read C len st2 hguard
      constructor
      · simp only [vec_u8_decode, vec_decode_generic, h1, h2, h2u]
        exact hmain.1
      · intro v st' h
        simp only [vec_u8_decode, h1, h2u] at h
        simp only [vec_decode_generic, h1, h2]
        exact hmain.2 v st' h

/-- Witness for `vec_u8_fast_path_equiv`: the generic loop agrees with the
fast path on input `[2, 9, 8]` (two elements `9, 8`) under limit 100. -/
theorem vec_u8_fast_path_equiv_witness :
    vec_decode_generic ⟨some 100, ByteOrder.little⟩ u8Codec ⟨[2, 9, 8], 0⟩ =
      (Except.ok [9, 8], ⟨[], 3⟩) :=
  (vec_u8_fast_path_equiv ⟨some 100, ByteOrder.little⟩ ⟨[2, 9, 8], 0⟩).2
    [9, 8] ⟨[], 3⟩ (by rfl)

/-- Witness for `deserialize_option_spec` on all three discriminant shapes:
absent (`[0]`), present wrapping a byte (`[1, 42]`), and out of range
(`[2]`), under limit 10. -/
theorem deserialize_option_spec_witness :
    deserialize_option ⟨some 10, ByteOrder.little⟩ u8_decode ⟨[0], 0⟩ =
      (Except.ok none, ⟨[], 1⟩) ∧
    deserialize_option ⟨some 10, ByteOrder.little⟩ u8_decode ⟨[1, 42], 0⟩ =
      (Except.ok (some 42), ⟨[], 2⟩) ∧
    deserialize_option ⟨some 10, ByteOrder.little⟩ u8_decode ⟨[2], 0⟩ =
      (Except.error (DecodeError.unexpectedVariant 2), ⟨[], 1⟩) :=
  ⟨(deserialize_option_spec ⟨some 10, ByteOrder.little⟩ u8_decode ⟨[0], 0⟩
      0 [] rfl (by rfl)).1 rfl,
   ((deserialize_option_spec ⟨some 10, ByteOrder.little⟩ u8_decode ⟨[1, 42], 0⟩
      1 [42] rfl (by rfl)).2.1 rfl).trans (by rfl),
   (deserialize_option_spec ⟨some 10, ByteOrder.little⟩ u8_decode ⟨[2], 0⟩
      2 [] rfl (by rfl)).2.2 (by norm_num)⟩

/-! ## Theorems: the container claim/refund protocol (C1) -/

/-- Helper: `u8::decode` never decreases `bytes_read` — it only claims. -/
theorem u8_decode_mono (C : Cfg) (st : DState) :
    st.bytes_read ≤ ((u8_decode C st).2).bytes_read := by
  unfold u8_decode
  split
  · rename_i e st1 heq
    have : st1 = (claimD C 1 st).2 := by rw [heq]
    rw [this]
    exact claim_bytes_read_mono C st.bytes_read 1
  · rename_i u st1 heq
    have hst1 : st1 = (claimD C 1 st).2 := by rw [heq]
    have h1 : st.bytes_read ≤ st1.bytes_read := by
      rw [hst1]
      exact claim_bytes_read_mono C st.bytes_read 1
    have h2 : ((readByte st1).2).bytes_read = st1.bytes_read := by
      unfold readByte
      rcases st1.input with _ | ⟨b, rest⟩ <;> rfl
    omega

/-- Helper: the claim result is success or `LimitExceeded`, nothing else. -/
theorem claim_bytes_read_result (C : Cfg) (br n : Nat) :
    (claim_bytes_read C br n).1 = Except.ok () ∨
    (claim_bytes_read C br n).1 = Except.error DecodeError.limitExceeded := by
  unfold claim_bytes_read checked_add
  cases hL : C.limit with
  | none => left; rfl
  | some l =>
    by_cases hov : br + n ≤ USIZE_MAX
    · rw [if_pos hov]
      by_cases hl : br + n > l
      · right
        show (if br + n > l then
            ((Except.error DecodeError.limitExceeded : Except DecodeError Unit),
              br + n)
          else (Except.ok (), br + n)).1 =
            Except.error DecodeError.limitExceeded
        rw [if_pos hl]
      · left
        show (if br + n > l then
            ((Except.error DecodeError.limitExceeded : Except DecodeError Unit),
              br + n)
          else (Except.ok (), br + n)).1 = Except.ok ()
        rw [if_neg hl]
    · rw [if_neg hov]
      right
      rfl

/-- Helper: a failing claim can only be `LimitExceeded`. -/
theorem claim_bytes_read_error_only_limit (C : Cfg) (br n : Nat)
    (e : DecodeError) (br' : Nat)
    (h : claim_bytes_read C br n = (Except.error e, br')) :
    e = DecodeError.limitExceeded := by
  rcases claim_bytes_read_result C br n with hr | hr <;> rw [h] at hr
  · simp at hr
  · simp only [Except.error.injEq] at hr
    exact hr

/-- Helper: net accounting identity of the generic vec loop — on success the
final counter plus the pre-claimed share equals the entry counter plus the
elements' own net claims. -/
theorem vec_loop_net (C : Cfg) (ec : ElemCodec α)
    (hmono : ∀ st : DState, st.bytes_read ≤ ((ec.dec C st).2).bytes_read) :
    ∀ (n : Nat) (st : DState) (v : List α) (st' : DState),
      (C.limit.isSome = true → n * ec.size ≤ st.bytes_read) →
      vec_decode_loop C ec n st = (Except.ok v, st') →
      (st'.bytes_read : Int) +
          (if C.limit.isSome then ((n * ec.size : Nat) : Int) else 0) =
        (st.bytes_read : Int) + elemClaimSum C ec n st := by
  intro n
  induction n with
  | zero =>
    intro st v st' hguard h
    simp only [vec_decode_loop, Prod.mk.injEq, Except.ok.injEq] at h
    rw [← h.2]
    simp [elemClaimSum]
  | succ k ih =>
    intro st v st' hguard h
    rw [vec_decode_loop] at h
    rcases hdec : ec.dec C (unclaimD C ec.size st) with ⟨r2, st2⟩
    rw [hdec] at h
    cases r2 with
    | error e => simp at h
    | ok a =>
      simp only at h
      rcases hrec : vec_decode_loop C ec k st2 with ⟨r3, st3⟩
      rw [hrec] at h
      cases r3 with
      | error e => simp at h
      | ok as =>
        simp only [Prod.mk.injEq, Except.ok.injEq] at h
        rcases h with ⟨_, hst⟩
        subst hst
        have hsum : elemClaimSum C ec (k + 1) st =
            ((st2.bytes_read : Int) -
              ((unclaimD C ec.size st).bytes_read : Int)) +
              elemClaimSum C ec k st2 := by
          simp only [elemClaimSum, hdec]
        have hmono1 : (unclaimD C ec.size st).bytes_read ≤ st2.bytes_read := by
          have hx := hmono (unclaimD C ec.size st)
          rw [hdec] at hx
          exact hx
        have hsucc : (k + 1) * ec.size = k * ec.size + ec.size :=
          Nat.succ_mul k ec.size
        by_cases hL : C.limit.isSome
        · have hge : (k + 1) * ec.size ≤ st.bytes_read := hguard hL
          rw [hsucc] at hge
          have hun : (unclaimD C ec.size st).bytes_read =
              st.bytes_read - ec.size := by
            unfold unclaimD unclaim_bytes_read
            rw [if_pos hL]
          rw [hun] at hmono1
          have hguard2 : C.limit.isSome = true → k * ec.size ≤ st2.bytes_read := by
            intro _
            omega
          have ihr := ih st2 as st3 hguard2 hrec
          rw [if_pos hL] at ihr
          rw [if_pos hL, hsum, hun, hsucc]
          omega
        · have hun : (unclaimD C ec.size st).bytes_read = st.bytes_read := by
            unfold unclaimD unclaim_bytes_read
            rw [if_neg hL]
          have ihr := ih st2 as st3 (fun hc => absurd hc hL) hrec
          rw [if_neg hL] at ihr
          rw [if_neg hL, hsum, hun]
          omega

/-- Helper: net accounting identity of the map loop, the pair analogue of
`vec_loop_net`; the accumulator plays no accounting role. -/
theorem btree_loop_net [LinearOrder κ] (C : Cfg) (pc : PairCodec κ ν)
    (hmonoK : ∀ st : DState, st.bytes_read ≤ ((pc.decK C st).2).bytes_read)
    (hmonoV : ∀ st : DState, st.bytes_read ≤ ((pc.decV C st).2).bytes_read) :
    ∀ (n : Nat) (map : List (κ × ν)) (st : DState) (v : List (κ × ν))
        (st' : DState),
      (C.limit.isSome = true → n * pc.size ≤ st.bytes_read) →
      btree_map_decode_loop C pc n map st = (Except.ok v, st') →
      (st'.bytes_read : Int) +
          (if C.limit.isSome then ((n * pc.size : Nat) : Int) else 0) =
        (st.bytes_read : Int) + pairClaimSum C pc n st := by
  intro n
  induction n with
  | zero =>
    intro map st v st' hguard h
    simp only [btree_map_decode_loop, Prod.mk.injEq, Except.ok.injEq] at h
    rw [← h.2]
    simp [pairClaimSum]
  | succ k ih =>
    intro map st v st' hguard h
    rw [btree_map_decode_loop] at h
    rcases hdecK : pc.decK C (unclaimD C pc.size st) with ⟨rK, stK⟩
    rw [hdecK] at h
    cases rK with
    | error e => simp at h
    | ok key =>
      simp only at h
      rcases hdecV : pc.decV C stK with ⟨rV, stV⟩
      rw [hdecV] at h
      cases rV with
      | error e => simp at h
      | ok value =>
        simp only at h
        have hsum : pairClaimSum C pc (k + 1) st =
            ((stV.bytes_read : Int) -
              ((unclaimD C pc.size st).bytes_read : Int)) +
              pairClaimSum C pc k stV := by
          simp only [pairClaimSum, hdecK, hdecV]
        have hmonoKV : (unclaimD C pc.size st).bytes_read ≤ stV.bytes_read := by
          have h1 : (unclaimD C pc.size st).bytes_read ≤ stK.bytes_read := by
            have hx := hmonoK (unclaimD C pc.size st)
            rw [hdecK] at hx
            exact hx
          have h2 : stK.bytes_read ≤ stV.bytes_read := by
            have hx := hmonoV stK
            rw [hdecV] at hx
            exact hx
          omega
        have hsucc : (k + 1) * pc.size = k * pc.size + pc.size :=
          Nat.succ_mul k pc.size
        by_cases hL : C.limit.isSome
        · have hge : (k + 1) * pc.size ≤ st.bytes_read := hguard hL
          rw [hsucc] at hge
          have hun : (unclaimD C pc.size st).bytes_read =
              st.bytes_read - pc.size := by
            unfold unclaimD unclaim_bytes_read
            rw [if_pos hL]
          rw [hun] at hmonoKV
          have hguard2 : C.limit.isSome = true → k * pc.size ≤ stV.bytes_read := by
            intro _
            omega
          have ihr := ih (btree_insert key value map) stV v st' hguard2 h
          rw [if_pos hL] at ihr
          rw [if_pos hL, hsum, hun, hsucc]
          omega
        · have hun : (unclaimD C pc.size st).bytes_read = st.bytes_read := by
            unfold unclaimD unclaim_bytes_read
            rw [if_neg hL]
          have ihr := ih (btree_insert key value map) stV v st'
            (fun hc => absurd hc hL) h
          rw [if_neg hL] at ihr
          rw [if_neg hL, hsum, hun]
          omega

/-- C1: the container decode protocol.  For `Vec::<T>::decode` and
`BTreeMap::<K, V>::decode`: after reading the element count the routine
pre-claims `len * size` in one `claim_bytes_read` call, so a hostile `len`
fails with `LimitExceeded` with no element bytes read; and on success the
net claimed total equals what the length header claimed plus the sum of
the element decodes' own net claims (each element having first refunded
its share of the pre-claim). -/
theorem container_claim_protocol :
    (∀ (C : Cfg) (α : Type) (ec : ElemCodec α) (st st1 st2 : DState)
        (len : Nat) (e : DecodeError),
      decode_slice_len C st = (Except.ok len, st1) →
      claim_container_read C ec.size len st1 = (Except.error e, st2) →
      vec_decode_generic C ec st = (Except.error e, st2) ∧
      e = DecodeError.limitExceeded ∧ st2.input = st1.input) ∧
    (∀ (C : Cfg) (α : Type) (ec : ElemCodec α),
      (∀ st : DState, st.bytes_read ≤ ((ec.dec C st).2).bytes_read) →
      ∀ (st st1 st2 : DState) (len : Nat) (v : List α) (st' : DState),
      decode_slice_len C st = (Except.ok len, st1) →
      claim_container_read C ec.size len st1 = (Except.ok (), st2) →
      vec_decode_generic C ec st = (Except.ok v, st') →
      (st'.bytes_read : Int) =
        st1.bytes_read + elemClaimSum C ec len st2) ∧
    (∀ (κ ν : Type) (linst : LinearOrder κ) (pc : PairCodec κ ν) (C : Cfg)
        (st st1 st2 : DState) (len : Nat) (e : DecodeError),
      decode_slice_len C st = (Except.ok len, st1) →
      claim_container_read C pc.size len st1 = (Except.error e, st2) →
      @btree_map_decode κ ν linst C pc st = (Except.error e, st2) ∧
      e = DecodeError.limitExceeded ∧ st2.input = st1.input) ∧
    (∀ (κ ν : Type) (linst : LinearOrder κ) (pc : PairCodec κ ν) (C : Cfg),
      (∀ st : DState, st.bytes_read ≤ ((pc.decK C st).2).bytes_read) →
      (∀ st : DState, st.bytes_read ≤ ((pc.decV C st).2).bytes_read) →
      ∀ (st st1 st2 : DState) (len : Nat) (v : List (κ × ν)) (st' : DState),
      decode_slice_len C st = (Except.ok len, st1) →
      claim_container_read C pc.size len st1 = (Except.ok (), st2) →
      @btree_map_decode κ ν linst C pc st = (Except.ok v, st') →
      (st'.bytes_read : Int) =
        st1.bytes_read + pairClaimSum C pc len st2) := by
  refine ⟨?_, ?_, ?_, ?_⟩
  · intro C α ec st st1 st2 len e h1 h2
    rcases hc : claim_bytes_read C st1.bytes_read (len * ec.size) with ⟨rc, brc⟩
    have h2' := h2
    simp only [claim_container_read, claimD] at h2'
    rw [hc] at h2'
    simp only [Prod.mk.injEq] at h2'
    rcases h2' with ⟨hrc, hst2⟩
    subst hrc
    refine ⟨?_, ?_, ?_⟩
    · simp only [vec_decode_generic, h1, h2]
    · exact claim_bytes_read_error_only_limit C st1.bytes_read
        (len * ec.size) e brc hc
    · rw [← hst2]
  · intro C α ec hmono st st1 st2 len v st' h1 h2 h3
    simp only [vec_decode_generic, h1, h2] at h3
    rcases hc : claim_bytes_read C st1.bytes_read (len * ec.size) with ⟨rc, brc⟩
    have h2' := h2
    simp only [claim_container_read, claimD] at h2'
    rw [hc] at h2'
    simp only [Prod.mk.injEq] at h2'
    rcases h2' with ⟨hrc, hst2⟩
    subst hrc
    have hok := claim_bytes_read_ok C st1.bytes_read (len * ec.size) () brc hc
    have hbr2 : st2.bytes_read = brc := by
      rw [← hst2]
    have hguard : C.limit.isSome = true → len * ec.size ≤ st2.bytes_read := by
      intro hL
      rcases Option.isSome_iff_exists.mp hL with ⟨l, hl⟩
      rcases hok.2 l hl with ⟨hbrc, _, _⟩
      omega
    have hnet := vec_loop_net C ec hmono len st2 v st' hguard h3
    by_cases hL : C.limit.isSome
    · rcases Option.isSome_iff_exists.mp hL with ⟨l, hl⟩
      rcases hok.2 l hl with ⟨hbrc, _, _⟩
      rw [if_pos hL] at hnet
      omega
    · have hbrc : brc = st1.bytes_read :=
        hok.1 (Option.not_isSome_iff_eq_none.mp hL)
      rw [if_neg hL] at hnet
      omega
  · intro κ ν linst pc C st st1 st2 len e h1 h2
    rcases hc : claim_bytes_read C st1.bytes_read (len * pc.size) with ⟨rc, brc⟩
    have h2' := h2
    simp only [claim_container_read, claimD] at h2'
    rw [hc] at h2'
    simp only [Prod.mk.injEq] at h2'
    rcases h2' with ⟨hrc, hst2⟩
    subst hrc
    refine ⟨?_, ?_, ?_⟩
    · simp only [btree_map_decode, h1, h2]
    · exact claim_bytes_read_error_only_limit C st1.bytes_read
        (len * pc.size) e brc hc
    · rw [← hst2]
  · intro κ ν linst pc C hmonoK hmonoV st st1 st2 len v st' h1 h2 h3
    simp only [btree_map_decode, h1, h2] at h3
    rcases hc : claim_bytes_read C st1.bytes_read (len * pc.size) with ⟨rc, brc⟩
    have h2' := h2
    simp only [claim_container_read, claimD] at h2'
    rw [hc] at h2'
    simp only [Prod.mk.injEq] at h2'
    rcases h2' with ⟨hrc, hst2⟩
    subst hrc
    have hok := claim_bytes_read_ok C st1.bytes_read (len * pc.size) () brc hc
    have hbr2 : st2.bytes_read = brc := by
      rw [← hst2]
    have hguard : C.limit.isSome = true → len * pc.size ≤ st2.bytes_read := by
      intro hL
      rcases Option.isSome_iff_exists.mp hL with ⟨l, hl⟩
      rcases hok.2 l hl with ⟨hbrc, _, _⟩
      omega
    have hnet := @btree_loop_net κ ν linst C pc hmonoK hmonoV len [] st2 v st'
      hguard h3
    by_cases hL : C.limit.isSome
    · rcases Option.isSome_iff_exists.mp hL with ⟨l, hl⟩
      rcases hok.2 l hl with ⟨hbrc, _, _⟩
      rw [if_pos hL] at hnet
      omega
    · have hbrc : brc = st1.bytes_read :=
        hok.1 (Option.not_isSome_iff_eq_none.mp hL)
      rw [if_neg hL] at hnet
      omega

/-- Witness for `container_claim_protocol`.  Hostile length: under limit 2,
input `[5, ...]` pre-claims 5 bytes and fails before any element byte is
consumed.  Net total: decoding `[2, 7, 8]` under limit 100 ends with
`bytes_read = 3` — the header's 1 byte plus the elements' net 2 — and the
analogous map decode of `[1, 9, 4]` ends at `3 = 1 + 2`. -/
theorem container_claim_protocol_witness :
    (vec_decode_generic ⟨some 2, ByteOrder.little⟩ u8Codec
        ⟨[5, 1, 2, 3, 4, 5], 0⟩ =
      (Except.error DecodeError.limitExceeded, ⟨[1, 2, 3, 4, 5], 6⟩) ∧
      DecodeError.limitExceeded = DecodeError.limitExceeded ∧
      ([1, 2, 3, 4, 5] : List Nat) = [1, 2, 3, 4, 5]) ∧
    ((3 : Int) = (1 : Nat) + elemClaimSum ⟨some 100, ByteOrder.little⟩ u8Codec
        2 ⟨[7, 8], 3⟩) ∧
    ((3 : Int) = (1 : Nat) +
      pairClaimSum ⟨some 100, ByteOrder.little⟩
        (⟨2, u8_decode, u8_decode⟩ : PairCodec Nat Nat) 1 ⟨[9, 4], 3⟩) := by
  refine ⟨?_, ?_, ?_⟩
  · exact container_claim_protocol.1 ⟨some 2, ByteOrder.little⟩ Nat u8Codec
      ⟨[5, 1, 2, 3, 4, 5], 0⟩ ⟨[1, 2, 3, 4, 5], 1⟩ ⟨[1, 2, 3, 4, 5], 6⟩ 5
      DecodeError.limitExceeded (by rfl) (by rfl)
  · exact container_claim_protocol.2.1 ⟨some 100, ByteOrder.little⟩ Nat
      u8Codec (u8_decode_mono ⟨some 100, ByteOrder.little⟩)
      ⟨[2, 7, 8], 0⟩ ⟨[7, 8], 1⟩ ⟨[7, 8], 3⟩ 2 [7, 8] ⟨[], 3⟩
      (by rfl) (by rfl) (by rfl)
  · exact container_claim_protocol.2.2.2 Nat Nat inferInstance
      (⟨2, u8_decode, u8_decode⟩ : PairCodec Nat Nat)
      ⟨some 100, ByteOrder.little⟩
      (u8_decode_mono ⟨some 100, ByteOrder.little⟩)
      (u8_decode_mono ⟨some 100, ByteOrder.little⟩)
      ⟨[1, 9, 4], 0⟩ ⟨[9, 4], 1⟩ ⟨[9, 4], 3⟩ 1 [(9, 4)] ⟨[], 3⟩
      (by rfl) (by rfl) (by rfl)

/-! ## Theorems: round-trip (C4) -/

/-- Helper: claiming under no limit is a pure success. -/
theorem claimD_none (C : Cfg) (hL : C.limit = none) (n : Nat) (st : DState) :
    claimD C n st = (Except.ok (), st) := by
  simp [claimD, claim_bytes_read, hL]

/-- Helper: refunding under no limit is the identity. -/
theorem unclaimD_none (C : Cfg) (hL : C.limit = none) (n : Nat) (st : DState) :
    unclaimD C n st = st := by
  simp [unclaimD, unclaim_bytes_read, hL]

/-- Helper: a claim that fits the budget succeeds and adds `n` to the
counter when a limit is set, nothing otherwise. -/
theorem claimD_ok_eq (C : Cfg) (n : Nat) (st : DState)
    (hbudget : ∀ L, C.limit = some L →
      st.bytes_read + n ≤ L ∧ L ≤ USIZE_MAX) :
    claimD C n st =
      (Except.ok (),
        ⟨st.input, st.bytes_read + (if C.limit.isSome then n else 0)⟩) := by
  cases hL : C.limit with
  | none =>
    rw [claimD_none C hL]
    simp [hL]
  | some L =>
    rcases hbudget L hL with ⟨h1, h2⟩
    simp only [claimD, claim_bytes_read, checked_add, hL]
    rw [if_pos (by omega)]
    simp [Nat.not_lt.mpr h1, hL]

/-- Helper: reading exactly the first block of the input. -/
theorem readBytes_exact (xs rest : List Nat) (br : Nat) :
    readBytes xs.length ⟨xs ++ rest, br⟩ = (Except.ok xs, ⟨rest, br⟩) := by
  unfold readBytes
  rw [if_pos (by simp)]
  simp [List.take_left, List.drop_left]

/-- Helper: decoding one byte off the front of the stream. -/
theorem u8_decode_cons (C : Cfg) (b : Nat) (rest : List Nat) (br : Nat)
    (hbudget : ∀ L, C.limit = some L → br + 1 ≤ L ∧ L ≤ USIZE_MAX) :
    u8_decode C ⟨b :: rest, br⟩ =
      (Except.ok b, ⟨rest, br + (if C.limit.isSome then 1 else 0)⟩) := by
  unfold u8_decode
  rw [claimD_ok_eq C 1 ⟨b :: rest, br⟩ (by simpa using hbudget)]
  rfl

/-- Helper: `toLEBytes` always yields its full width. -/
theorem toLEBytes_length (k : Nat) : ∀ n, (toLEBytes k n).length = k := by
  induction k with
  | zero => intro n; rfl
  | succ k ih =>
    intro n
    simp [toLEBytes, ih]

/-- Helper: the little-endian encoding round-trips below its width. -/
theorem fromLE_toLE (k : Nat) : ∀ n, n < 2 ^ (8 * k) →
    fromLEBytes (toLEBytes k n) = n := by
  induction k with
  | zero =>
    intro n h
    have hn : n = 0 := by
      simp only [Nat.mul_zero, pow_zero] at h
      omega
    subst hn
    rfl
  | succ k ih =>
    intro n h
    rw [toLEBytes, fromLEBytes]
    have hpow : 2 ^ (8 * (k + 1)) = 2 ^ (8 * k) * 256 := by
      rw [Nat.mul_succ, pow_add]
      norm_num
    have hdiv : n / 256 < 2 ^ (8 * k) := by
      rw [Nat.div_lt_iff_lt_mul (by norm_num : (0 : Nat) < 256)]
      rw [hpow] at h
      exact h
    rw [ih (n / 256) hdiv]
    omega

/-- Helper: decoding the length bytes written by `encode_slice_len`. -/
theorem decode_slice_len_encode (C : Cfg) (n : Nat) (rest : List Nat)
    (br : Nat) (hnum : n ≤ USIZE_MAX)
    (hbudget : ∀ L, C.limit = some L →
      br + (encode_slice_len n).length ≤ L ∧ L ≤ USIZE_MAX) :
    decode_slice_len C ⟨encode_slice_len n ++ rest, br⟩ =
      (Except.ok n,
        ⟨rest,
          br + (if C.limit.isSome then (encode_slice_len n).length else 0)⟩) := by
  by_cases hn : n < 251
  · have henc : encode_slice_len n = [n] := by
      unfold encode_slice_len
      rw [if_pos hn]
    rw [henc] at hbudget ⊢
    have hu8 := u8_decode_cons C n rest br (by simpa using hbudget)
    simp only [decode_slice_len, List.cons_append, List.nil_append, hu8,
      if_pos hn, List.length_cons, List.length_nil]
  · have henc : encode_slice_len n = 251 :: toLEBytes 8 n := by
      unfold encode_slice_len
      rw [if_neg hn]
    have hlen9 : (encode_slice_len n).length = 9 := by
      rw [henc]
      simp [toLEBytes_length]
    have hb9 : ∀ L, C.limit = some L → br + 9 ≤ L ∧ L ≤ USIZE_MAX := by
      intro L hL
      have := hbudget L hL
      rw [hlen9] at this
      exact this
    rw [henc]
    have hu8 := u8_decode_cons C 251 (toLEBytes 8 n ++ rest) br
      (by intro L hL; have := hb9 L hL; omega)
    have hclaim8 := claimD_ok_eq C 8
      ⟨toLEBytes 8 n ++ rest, br + (if C.limit.isSome then 1 else 0)⟩
      (by
        intro L hL
        have := hb9 L hL
        simp only [hL, Option.isSome_some, if_true]
        omega)
    have hread := readBytes_exact (toLEBytes 8 n) rest
      (br + (if C.limit.isSome then 1 else 0) +
        (if C.limit.isSome then 8 else 0))
    rw [toLEBytes_length 8 n] at hread
    have hval : fromLEBytes (toLEBytes 8 n) = n := by
      refine fromLE_toLE 8 n ?_
      have : (2 : Nat) ^ (8 * 8) = 2 ^ 64 := by norm_num
      rw [this]
      unfold USIZE_MAX at hnum
      omega
    simp only [decode_slice_len, List.cons_append, hu8, if_neg hn, hclaim8,
      hread, hval, hlen9]
    by_cases hL : C.limit.isSome <;> simp [hL, hval, toLEBytes_length]

/-- Helper: `Vec::<u8>` round-trip for any Config whose limit, if present,
admits the encoded bytes. -/
theorem vec_u8_roundtrip (v : List Nat) (C : Cfg)
    (hnum : v.length ≤ USIZE_MAX)
    (hbudget : ∀ L, C.limit = some L →
      (vec_u8_encode v).length ≤ L ∧ L ≤ USIZE_MAX) :
    vec_u8_decode C ⟨vec_u8_encode v, 0⟩ =
      (Except.ok v,
        ⟨[], if C.limit.isSome then (vec_u8_encode v).length else 0⟩) := by
  have hlen : (vec_u8_encode v).length =
      (encode_slice_len v.length).length + v.length := by
    simp [vec_u8_encode]
  have hdr := decode_slice_len_encode C v.length v 0 hnum
    (by
      intro L hL
      rcases hbudget L hL with ⟨h1, h2⟩
      omega)
  have hclaim := claimD_ok_eq C v.length
    ⟨v, 0 + (if C.limit.isSome then (encode_slice_len v.length).length else 0)⟩
    (by
      intro L hL
      rcases hbudget L hL with ⟨h1, h2⟩
      simp only [hL, Option.isSome_some, if_true]
      omega)
  have hread := readBytes_exact v []
    (0 + (if C.limit.isSome then (encode_slice_len v.length).length else 0) +
      (if C.limit.isSome then v.length else 0))
  rw [List.append_nil] at hread
  have hmul : v.length * 1 = v.length := Nat.mul_one _
  simp only [vec_u8_decode, vec_u8_encode, hdr, claim_container_read, hmul,
    hclaim, hread]
  by_cases hL : C.limit.isSome <;> simp [hL, vec_u8_encode]

/-- Helper: the borrowed byte-run decode round-trips for any Config whose
limit, if present, admits the encoded bytes (its claims — the length
header plus the slice claim — total exactly the encoded length). -/
theorem borrowed_bytes_roundtrip (v : List Nat) (C : Cfg)
    (hnum : v.length ≤ USIZE_MAX)
    (hbudget : ∀ L, C.limit = some L →
      (vec_u8_encode v).length ≤ L ∧ L ≤ USIZE_MAX) :
    borrowed_bytes_decode C ⟨vec_u8_encode v, 0⟩ =
      (Except.ok v,
        ⟨[], if C.limit.isSome then (vec_u8_encode v).length else 0⟩) := by
  have hlen : (vec_u8_encode v).length =
      (encode_slice_len v.length).length + v.length := by
    simp [vec_u8_encode]
  have hdr := decode_slice_len_encode C v.length v 0 hnum
    (by
      intro L hL
      rcases hbudget L hL with ⟨h1, h2⟩
      omega)
  have hclaim := claimD_ok_eq C v.length
    ⟨v, 0 + (if C.limit.isSome then (encode_slice_len v.length).length else 0)⟩
    (by
      intro L hL
      rcases hbudget L hL with ⟨h1, h2⟩
      simp only [hL, Option.isSome_some, if_true]
      omega)
  have hread := readBytes_exact v []
    (0 + (if C.limit.isSome then (encode_slice_len v.length).length else 0) +
      (if C.limit.isSome then v.length else 0))
  rw [List.append_nil] at hread
  simp only [borrowed_bytes_decode, vec_u8_encode, hdr, hclaim, hread]
  by_cases hL : C.limit.isSome <;> simp [hL, vec_u8_encode]

/-- Helper: `u8::decode` consumes exactly its single encoded byte under no
limit. -/
theorem u8_dec_roundtrip_none (a : Nat) (rest : List Nat) (br : Nat) :
    u8_decode ⟨none, ByteOrder.little⟩ ⟨[a] ++ rest, br⟩ =
      (Except.ok a, ⟨rest, br⟩) := by
  have h := u8_decode_cons ⟨none, ByteOrder.little⟩ a rest br
    (by intro L hL; cases hL)
  simpa using h

/-- Helper: the generic per-element loop undoes the element-wise encoding
when every element codec round-trips (no limit set). -/
theorem vec_loop_roundtrip (C : Cfg) (hL : C.limit = none)
    (enc : α → List Nat) (ec : ElemCodec α)
    (helem : ∀ (a : α) (rest : List Nat) (br : Nat),
      ec.dec C ⟨enc a ++ rest, br⟩ = (Except.ok a, ⟨rest, br⟩)) :
    ∀ (v : List α) (rest : List Nat) (br : Nat),
      vec_decode_loop C ec v.length ⟨v.flatMap enc ++ rest, br⟩ =
        (Except.ok v, ⟨rest, br⟩) := by
  intro v
  induction v with
  | nil =>
    intro rest br
    simp [vec_decode_loop]
  | cons a v ih =>
    intro rest br
    rw [List.length_cons, vec_decode_loop, unclaimD_none C hL]
    have hd : ec.dec C ⟨(a :: v).flatMap enc ++ rest, br⟩ =
        (Except.ok a, ⟨v.flatMap enc ++ rest, br⟩) := by
      rw [List.flatMap_cons, List.append_assoc]
      exact helem a (v.flatMap enc ++ rest) br
    simp only [hd, ih rest br]

/-- Helper: generic `Vec::<T>` round-trip under a round-tripping element
codec and no limit. -/
theorem vec_generic_roundtrip (C : Cfg) (hL : C.limit = none)
    (enc : α → List Nat) (ec : ElemCodec α)
    (helem : ∀ (a : α) (rest : List Nat) (br : Nat),
      ec.dec C ⟨enc a ++ rest, br⟩ = (Except.ok a, ⟨rest, br⟩))
    (v : List α) (hnum : v.length ≤ USIZE_MAX) :
    vec_decode_generic C ec ⟨vec_encode enc v, 0⟩ =
      (Except.ok v, ⟨[], 0⟩) := by
  have hdr := decode_slice_len_encode C v.length (v.flatMap enc) 0 hnum
    (by intro L hsome; rw [hL] at hsome; cases hsome)
  rw [hL] at hdr
  simp only [Option.isSome_none, Bool.false_eq_true, if_false,
    Nat.add_zero] at hdr
  have hloop := vec_loop_roundtrip C hL enc ec helem v [] 0
  rw [List.append_nil] at hloop
  simp only [vec_decode_generic, vec_encode, hdr, claim_container_read,
    claimD_none C hL, hloop]

/-- C4 counterexample: with `Config { limit: Some(2) }`, decoding the bytes
produced by encoding `vec![1u8, 2, 3]` fails with `LimitExceeded` instead
of yielding the value back — the round-trip does not hold for every
Config.  Moreover a limit equal to the encoded byte length is not enough
in general: for an element type of in-memory size 9 encoded in one byte
(a varint-encoded `u64`-like element), the coarse pre-claim
`len * size_of::<T>()` rejects the 2-byte encoding of a one-element vec
under `limit = Some(2)`. -/
theorem roundtrip_limit_counterexample :
    (vec_u8_decode ⟨some 2, ByteOrder.little⟩
        ⟨vec_u8_encode [1, 2, 3], 0⟩).1 =
      Except.error DecodeError.limitExceeded ∧
    (¬∃ st' : DState,
      vec_u8_decode ⟨some 2, ByteOrder.little⟩ ⟨vec_u8_encode [1, 2, 3], 0⟩ =
        (Except.ok [1, 2, 3], st')) ∧
    (vec_decode_generic ⟨some 2, ByteOrder.little⟩
        (⟨9, u8_decode⟩ : ElemCodec Nat) ⟨[1, 5], 0⟩).1 =
      Except.error DecodeError.limitExceeded := by
  refine ⟨rfl, ?_, rfl⟩
  rintro ⟨st', h⟩
  have h1 : (Except.error DecodeError.limitExceeded :
      Except DecodeError (List Nat)) = Except.ok [1, 2, 3] := by
    have h2 := congrArg Prod.fst h
    exact h2
  exact Except.noConfusion h1

/-- C4 (amended): the round-trip holds for every Config without a decode
limit, and, when a limit is set, for byte-run values — whose claims total
exactly the encoded length — whenever the limit admits the encoded
bytes: `Vec<u8>` owned decode returns the value (fast path, any
sufficient Config), the borrowing decode is the byte-identical
algorithm, `Cow` over a byte run round-trips in both disciplines with
contents equal to the original (any sufficient Config), and generic
`Vec<T>` round-trips under any Config without a limit whenever its
element codec does (with a limit set, the coarse pre-claim
`len * size_of::<T>()` may transiently exceed the encoded size, as the
counterexample's third conjunct shows, so a sufficient limit must admit
the decode's claims, not merely the encoded length). -/
theorem roundtrip_amended :
    (∀ (v : List Nat) (C : Cfg),
      v.length ≤ USIZE_MAX →
      (∀ L, C.limit = some L →
        (vec_u8_encode v).length ≤ L ∧ L ≤ USIZE_MAX) →
      vec_u8_decode C ⟨vec_u8_encode v, 0⟩ =
        (Except.ok v,
          ⟨[], if C.limit.isSome then (vec_u8_encode v).length else 0⟩)) ∧
    (vec_u8_borrow_decode = vec_u8_decode) ∧
    (∀ (c : Cow (List Nat)) (C : Cfg),
      c.value.length ≤ USIZE_MAX →
      (∀ L, C.limit = some L →
        (vec_u8_encode c.value).length ≤ L ∧ L ≤ USIZE_MAX) →
      cow_bytes_decode C ⟨cow_bytes_encode c, 0⟩ =
        (Except.ok (Cow.owned c.value),
          ⟨[], if C.limit.isSome then (vec_u8_encode c.value).length
            else 0⟩) ∧
      cow_bytes_borrow_decode C ⟨cow_bytes_encode c, 0⟩ =
        (Except.ok (Cow.borrowed c.value),
          ⟨[], if C.limit.isSome then (vec_u8_encode c.value).length
            else 0⟩) ∧
      (Cow.owned c.value).value = c.value ∧
      (Cow.borrowed c.value).value = c.value) ∧
    (∀ (α : Type) (enc : α → List Nat) (ec : ElemCodec α) (C : Cfg),
      C.limit = none →
      (∀ (a : α) (rest : List Nat) (br : Nat),
        ec.dec C ⟨enc a ++ rest, br⟩ = (Except.ok a, ⟨rest, br⟩)) →
      ∀ v : List α, v.length ≤ USIZE_MAX →
      vec_decode_generic C ec ⟨vec_encode enc v, 0⟩ =
        (Except.ok v, ⟨[], 0⟩)) := by
  refine ⟨fun v C hnum hbudget => vec_u8_roundtrip v C hnum hbudget, rfl,
    ?_, fun α enc ec C hL helem v hnum =>
      vec_generic_roundtrip C hL enc ec helem v hnum⟩
  intro c C hnum hbudget
  have hv := vec_u8_roundtrip c.value C hnum hbudget
  have hb := borrowed_bytes_roundtrip c.value C hnum hbudget
  refine ⟨?_, ?_, rfl, rfl⟩
  · simp only [cow_bytes_decode, cow_bytes_encode, hv]
  · simp only [cow_bytes_borrow_decode, cow_bytes_encode, hb]

/-- Witness for `roundtrip_amended`: `[1, 2, 3]` survives the owned `u8`
round-trip under limit 100 (claiming exactly the 4 encoded bytes); a
`Cow` of `[7]` round-trips in both disciplines under the set limit 100
(claiming exactly its 2 encoded bytes); and a generic two-element vec
round-trips through the `u8` element codec under no limit. -/
theorem roundtrip_amended_witness :
    vec_u8_decode ⟨some 100, ByteOrder.little⟩
        ⟨vec_u8_encode [1, 2, 3], 0⟩ =
      (Except.ok [1, 2, 3], ⟨[], 4⟩) ∧
    cow_bytes_decode ⟨some 100, ByteOrder.little⟩
        ⟨cow_bytes_encode (Cow.borrowed [7]), 0⟩ =
      (Except.ok (Cow.owned [7]), ⟨[], 2⟩) ∧
    cow_bytes_borrow_decode ⟨some 100, ByteOrder.little⟩
        ⟨cow_bytes_encode (Cow.borrowed [7]), 0⟩ =
      (Except.ok (Cow.borrowed [7]), ⟨[], 2⟩) ∧
    vec_decode_generic ⟨none, ByteOrder.little⟩ u8Codec
        ⟨vec_encode (fun a => [a]) [4, 5], 0⟩ =
      (Except.ok [4, 5], ⟨[], 0⟩) := by
  have hcowbudget : ∀ L, (⟨some 100, ByteOrder.little⟩ : Cfg).limit = some L →
      (vec_u8_encode (Cow.borrowed [7] : Cow (List Nat)).value).length ≤ L ∧
      L ≤ USIZE_MAX := by
    intro L hsome
    simp only [Option.some.injEq] at hsome
    subst hsome
    constructor
    · norm_num [vec_u8_encode, encode_slice_len, Cow.value]
    · norm_num [USIZE_MAX]
  refine ⟨?_, ?_, ?_, ?_⟩
  · have h := roundtrip_amended.1 [1, 2, 3] ⟨some 100, ByteOrder.little⟩
      (by norm_num [USIZE_MAX]) (by
        intro L hsome
        simp only [Option.some.injEq] at hsome
        subst hsome
        constructor
        · norm_num [vec_u8_encode, encode_slice_len]
        · norm_num [USIZE_MAX])
    simpa using h
  · have h := (roundtrip_amended.2.2.1 (Cow.borrowed [7])
      ⟨some 100, ByteOrder.little⟩ (by norm_num [USIZE_MAX, Cow.value])
      hcowbudget).1
    simpa [Cow.value, vec_u8_encode, encode_slice_len] using h
  · have h := (roundtrip_amended.2.2.1 (Cow.borrowed [7])
      ⟨some 100, ByteOrder.little⟩ (by norm_num [USIZE_MAX, Cow.value])
      hcowbudget).2.1
    simpa [Cow.value, vec_u8_encode, encode_slice_len] using h
  · exact roundtrip_amended.2.2.2 Nat (fun a => [a]) u8Codec
      ⟨none, ByteOrder.little⟩ rfl u8_dec_roundtrip_none [4, 5]
      (by norm_num [USIZE_MAX])

end Bincode
